import Mathlib

/-!
Verification of the tournament-calendar aggregation pipeline
(`_scripts/update_tournaments.py`) and the link checker
(`_scripts/verify_links.py`) of the chess-variants site repository.

The Python scripts are shallowly embedded: strings are Lean `String`s
manipulated through their underlying `List Char` (so that every operation
is structurally recursive and evaluates inside the kernel), pandas cells
are a small value type distinguishing `None`, `NaN` and strings, network
responses and exceptions are explicit data passed in as oracles, and the
three `re.sub` substitutions of `prettify_location` run on a small
backtracking matcher specialised to character-class sequence patterns,
with Python's leftmost / greedy / first-alternative preference.
-/

/-! ### Generic string machinery (Python semantics over `List Char`) -/

/-- Lexicographic strict comparison of character lists, by code point:
the order Python uses on `str` (for the ASCII data handled here). -/
def lexLt : List Char → List Char → Bool
  | [], [] => false
  | [], _ :: _ => true
  | _ :: _, [] => false
  | a :: as, b :: bs => if a < b then true else if b < a then false else lexLt as bs

/-- Python `a < b` on strings. -/
def pyStrLt (a b : String) : Bool := lexLt a.data b.data

/-- Three-way character comparison (by code point). -/
def charCmp (a b : Char) : Ordering :=
  if a < b then .lt else if b < a then .gt else .eq

/-- Three-way lexicographic comparison of lists from a component comparison. -/
def cmpList {α : Type} (cmp : α → α → Ordering) : List α → List α → Ordering
  | [], [] => .eq
  | [], _ :: _ => .lt
  | _ :: _, [] => .gt
  | a :: as, b :: bs => (cmp a b).then (cmpList cmp as bs)

/-- Three-way lexicographic comparison of character lists. -/
def lexCmp : List Char → List Char → Ordering := cmpList charCmp

/-- Substring test: Python's `needle in hay`. -/
def containsSub : List Char → List Char → Bool
  | n, [] => n.isEmpty
  | n, c :: t => n.isPrefixOf (c :: t) || containsSub n t

/-- Python `needle in hay` on strings. -/
def pyIn (needle hay : String) : Bool := containsSub needle.data hay.data

/-- Python `str.lower()` (ASCII, which covers all data in this repo). -/
def lowerStr (s : String) : String := ⟨s.data.map Char.toLower⟩

/-- Python `str.capitalize()`: first character uppercased, rest lowercased. -/
def pyCapitalize (s : String) : String :=
  match s.data with
  | [] => ""
  | c :: cs => ⟨c.toUpper :: cs.map Char.toLower⟩

/-- Split a character list at every separator character (keeping empty
pieces), as Python `str.split(sep)` does. -/
def splitWhen (p : Char → Bool) : List Char → List (List Char)
  | [] => [[]]
  | c :: cs => if p c then [] :: splitWhen p cs else (splitWhen p cs).modifyHead (c :: ·)

/-- Python `str.split()` with no argument: split on whitespace runs,
dropping empty pieces. -/
def pySplitWS (s : String) : List (List Char) :=
  (splitWhen Char.isWhitespace s.data).filter (fun w => !w.isEmpty)

/-- Python `str.strip()`: drop leading and trailing whitespace. -/
def stripL (l : List Char) : List Char :=
  ((l.dropWhile Char.isWhitespace).reverse.dropWhile Char.isWhitespace).reverse

/-- First-seen-order deduplication with an accumulator of already-seen
values: the order produced by Python's `dict.fromkeys`. -/
def dedupFirst : List (List Char) → List (List Char) → List (List Char)
  | _, [] => []
  | seen, x :: xs =>
    if x ∈ seen then dedupFirst seen xs else x :: dedupFirst (x :: seen) xs

/-- Python `", ".join` on segments. -/
def joinCS : List (List Char) → List Char
  | [] => []
  | [s] => s
  | s :: r :: rest => s ++ ',' :: ' ' :: joinCS (r :: rest)

/-! ### `update_tournaments.py`: variant inference -/

/-- `ALL_VARIANTS = set(('shogi', 'xiangqi', 'janggi', 'makruk'))`
(membership is all the code uses, so a list is a faithful carrier). -/
def ALL_VARIANTS : List String := ["shogi", "xiangqi", "janggi", "makruk"]

/-- The distinct lower-cased words of `title` that lie in `variants`:
`set(title.lower().split()).intersection(variants)` of `get_variant`.
`List.dedup` makes the words distinct, so the length of this list is the
cardinality of the Python set intersection. -/
def variantWords (title : String) (variants : List String) : List (List Char) :=
  ((pySplitWS (lowerStr title)).dedup).filter (fun w => variants.any (fun v => v.data == w))

/-- `get_variant(title, variants)` of `update_tournaments.py`.  `none`
models the `assert ALL_VARIANTS.intersection(variants)` failing (an
`AssertionError` escaping); otherwise: if exactly one permitted variant
word occurs in the lower-cased, whitespace-split title, that word is
returned capitalized, else the first entry of `variants` is. -/
def get_variant (title : String) (variants : List String) : Option String :=
  if variants.any (fun v => ALL_VARIANTS.contains v) then
    let found := variantWords title variants
    if found.length == 1 then some (pyCapitalize ⟨found.headD []⟩)
    else some (pyCapitalize (variants.headD ""))
  else none

/-! ### `update_tournaments.py`: the tournament table -/

/-- A pandas cell as the script encounters it: `None` (a missing ICS
`location`), `NaN` (an empty cell read from the TSV), or a string.
Python truthiness: `None`, `NaN` and `""` behave differently under
`x or '-'` (`NaN` is truthy and `str(nan) = 'nan'`). -/
inductive PVal where
  | vnone : PVal
  | vnan : PVal
  | vstr : String → PVal
deriving DecidableEq

/-- A row of `tournaments.tsv` after the location column has been
cleaned (every cell a string). -/
structure Row where
  startDate : String
  endDate : String
  variant : String
  location : String
  tournament : String
  source : String
deriving DecidableEq

/-- A row as concatenated before cleaning: the location cell may still
be missing. -/
structure RawRow where
  startDate : String
  endDate : String
  variant : String
  location : PVal
  tournament : String
  source : String
deriving DecidableEq

/-- `merged[merged['end-date'] >= datetime.datetime.today().strftime('%Y-%m-%d')]`:
keep the rows whose `end-date` string is not lexicographically smaller
than today's `YYYY-MM-DD` string. -/
def filterPast (today : String) (rows : List Row) : List Row :=
  rows.filter (fun r => !(pyStrLt r.endDate today))

/-- `df.drop_duplicates(subset=key, keep='last')`: a row survives iff no
later row has the same key; surviving rows keep their relative order. -/
def dropDupKeepLast {α K : Type} [DecidableEq K] (key : α → K) : List α → List α
  | [] => []
  | r :: rest =>
    if rest.any (fun q => decide (key q = key r)) then dropDupKeepLast key rest
    else r :: dropDupKeepLast key rest

/-- The subset `('start-date', 'variant', 'tournament')` of the exact
duplicate removal. -/
def exactKey (r : Row) : String × String × String :=
  (r.startDate, r.variant, r.tournament)

/-- Python `\w` (ASCII part): the characters kept by `re.match(r'^\w*', s)`. -/
def pyWordChar (c : Char) : Bool := c.isAlphanum || c == '_'

/-- `location2 = re.match(r'^\w*', s).group()`: the leading run of word
characters of the cleaned location. -/
def leadingWord (s : String) : String := ⟨s.data.takeWhile pyWordChar⟩

/-- The subset `('start-date', 'end-date', 'variant', 'location2')` of the
fuzzy duplicate removal. -/
def fuzzyKey (r : Row) : String × String × String × String :=
  (r.startDate, r.endDate, r.variant, leadingWord r.location)

/-! ### `update_tournaments.py`: the three `re.sub` passes of `prettify_location`

The three patterns — `[^, ][^,]* \d+`, `\d{4,6}|\d+\-\d+` and `[^,]{30,}` —
are alternations of sequences of counted character classes, so a small
backtracking matcher over such sequences reproduces Python's `re.sub`
exactly: leftmost starting position, greedy quantifiers with
backtracking, left alternative preferred, non-overlapping scan resuming
at each match end. -/

/-- One counted character class of a pattern: between `lo` and `hi`
(unbounded when `none`) repetitions of a character class. -/
structure RItem where
  cls : Char → Bool
  lo : Nat
  hi : Option Nat

/-- Length of the longest prefix inside the class. -/
def countLeading (p : Char → Bool) (s : List Char) : Nat := (s.takeWhile p).length

/-- Match a sequence of counted classes at the head of `s`, returning the
length of the match preferred by Python's backtracking (each quantifier
greedy, later quantifiers backtrack first). -/
def matchItems : List RItem → List Char → Option Nat
  | [], _ => some 0
  | it :: rest, s =>
    let g := match it.hi with
      | none => countLeading it.cls s
      | some h => min h (countLeading it.cls s)
    (List.range (g + 1 - it.lo)).findSome? (fun i =>
      (matchItems rest (s.drop (g - i))).map (fun m => (g - i) + m))

/-- Match an alternation at the head of `s`, trying alternatives left to
right as Python does. -/
def matchAlts (alts : List (List RItem)) (s : List Char) : Option Nat :=
  alts.findSome? (fun p => matchItems p s)

/-- `re.sub(pattern, '', s)` scan with explicit fuel (one unit per
consumed character, so `s.length` always suffices); kept structurally
recursive so that the kernel can evaluate it. A zero-width match
contributes the empty replacement and the scan keeps the current
character, which is also what Python does; the three patterns used here
can never match the empty string anyway. -/
def reSubFuel (alts : List (List RItem)) : Nat → List Char → List Char
  | 0, s => s
  | _ + 1, [] => []
  | f + 1, c :: rest =>
    match matchAlts alts (c :: rest) with
    | some (n + 1) => reSubFuel alts f (List.drop (n + 1) (c :: rest))
    | _ => c :: reSubFuel alts f rest

/-- `re.sub(pattern, '', s)`. -/
def reSub (alts : List (List RItem)) (s : List Char) : List Char :=
  reSubFuel alts s.length s

/-- `[^, ]`. -/
def ccNotCommaSpace : Char → Bool := fun c => !(c == ',' || c == ' ')

/-- `[^,]`. -/
def ccNotComma : Char → Bool := fun c => !(c == ',')

/-- `\d` (ASCII; the repo's data is ASCII). -/
def ccDigit : Char → Bool := Char.isDigit

/-- A literal space. -/
def ccSpace : Char → Bool := fun c => c == ' '

/-- A literal `-`. -/
def ccHyphen : Char → Bool := fun c => c == '-'

/-- `'[^, ][^,]* \d+'` — the street-name pass. -/
def pat1 : List (List RItem) :=
  [[⟨ccNotCommaSpace, 1, some 1⟩, ⟨ccNotComma, 0, none⟩, ⟨ccSpace, 1, some 1⟩, ⟨ccDigit, 1, none⟩]]

/-- `r'\d{4,6}|\d+\-\d+'` — the zip-code pass. -/
def pat2 : List (List RItem) :=
  [[⟨ccDigit, 4, some 6⟩], [⟨ccDigit, 1, none⟩, ⟨ccHyphen, 1, some 1⟩, ⟨ccDigit, 1, none⟩]]

/-- `'[^,]{30,}'` — the lengthy-name pass. -/
def pat3 : List (List RItem) :=
  [[⟨ccNotComma, 30, none⟩]]

/-- The three ordered `replace(..., regex=True)` passes applied to one
string cell. -/
def regexPassL (l : List Char) : List Char := reSub pat3 (reSub pat2 (reSub pat1 l))

/-- Same, on strings. -/
def regexPass (s : String) : String := ⟨regexPassL s.data⟩

/-! ### `update_tournaments.py`: the cleanup lambda of `prettify_location` -/

/-- The comma-separated segments produced by the cleanup lambda
`", ".join(dict.fromkeys(s.strip() for s in str(x or '-').split(',') if s.strip()))`
applied to the post-regex character list `z`: the placeholder for a falsy
value, then split on commas, strip, drop empties, deduplicate keeping
first-seen order. -/
def segsOf (z : List Char) : List (List Char) :=
  dedupFirst []
    (((splitWhen (fun c => c == ',') (if z.isEmpty then ['-'] else z)).map stripL).filter
      (fun s => !s.isEmpty))

/-- The cleanup lambda on one post-regex character list. -/
def cleanupL (z : List Char) : List Char := joinCS (segsOf z)

/-- `prettify_location` on a single cell.  The regex passes only touch
string cells; the cleanup lambda then sees `str(x or '-')`: `None` and
`''` are falsy and become `'-'`, while `NaN` is truthy and prints as
`'nan'`. -/
def prettifyVal : PVal → String
  | .vnone => ⟨cleanupL []⟩
  | .vnan => ⟨cleanupL ("nan".data)⟩
  | .vstr s => ⟨cleanupL (regexPassL s.data)⟩

/-- `prettify_location` on the whole location column (the result of
`Series.apply` is a column of strings). -/
def prettifyCol (col : List PVal) : List PVal :=
  col.map (fun v => .vstr (prettifyVal v))

/-! ### `update_tournaments.py`: fetching and the ICS normalizer -/

/-- What the network did for one `requests.get`: a response (status and
body), or a requests-level exception (connection error and friends). -/
inductive FetchOutcome where
  | response : Nat → String → FetchOutcome
  | netException : FetchOutcome
deriving DecidableEq

/-- The error that escapes `get_content`: `response.raise_for_status()`
on a status of 400 or above, or the exception `requests.get` itself
raised.  Neither is caught anywhere in `update_tournaments.py`. -/
inductive NetErr where
  | httpStatus : Nat → NetErr
  | connectionFailure : NetErr
deriving DecidableEq

/-- `get_content`: perform the request and `raise_for_status()`. -/
def get_content (f : FetchOutcome) : Except NetErr String :=
  match f with
  | .netException => .error .connectionFailure
  | .response st body => if 400 ≤ st then .error (.httpStatus st) else .ok body

/-- `icalendar.Calendar.from_ical` raising on a malformed document. -/
inductive ParseErr where
  | malformed : ParseErr
deriving DecidableEq

/-- A parsed calendar component.  The `dtstart`/`dtend` fields carry the
already-`strftime`d `YYYY-MM-DD` text (date formatting itself is not in
scope of any claim); `url` is `none` when the event has no URL field. -/
structure IcsComponent where
  name : String
  dtstart : String
  dtend : String
  summary : String
  location : PVal
  url : Option String
deriving DecidableEq

/-- `gcal.walk()` as the list of components it yields. -/
abbrev IcsCalendar := List IcsComponent

/-- An error escaping `get_ics_calendar`: a network/HTTP error from
`get_content`, or a parse error from `icalendar`. -/
inductive IcsErr where
  | net : NetErr → IcsErr
  | parse : ParseErr → IcsErr
deriving DecidableEq

/-- `pd.DataFrame(tournaments, columns=columns)`. -/
structure DataFrame where
  columns : List String
  rows : List (List PVal)
deriving DecidableEq

/-- A single quote character, for the anchor text. -/
def squote : String := ⟨['\'']⟩

/-- The scan inside `urlparse` that this script relies on: the text after
the first `//`. -/
def afterSlashSlash : List Char → Option (List Char)
  | [] => none
  | '/' :: '/' :: rest => some rest
  | _ :: rest => afterSlashSlash rest

/-- `urlparse(url).netloc` for the absolute URLs this script handles:
the text between the first `//` and the next `/`, `?` or `#`. -/
def netloc (url : String) : String :=
  match afterSlashSlash url.data with
  | none => ""
  | some rest => ⟨rest.takeWhile (fun c => !(c == '/' || c == '?' || c == '#'))⟩

/-- `render_link(url)`: `"<a href='{}'>{}</a>".format(url, urlparse(url).netloc)`. -/
def render_link (url : String) : String :=
  "<a href=" ++ squote ++ url ++ squote ++ ">" ++ netloc url ++ "</a>"

/-- `get_variant` as called on a feed whose permitted variant tuple
passes the assert (every call site passes a literal subset of
`ALL_VARIANTS`). -/
def get_variant_ok (title : String) (variants : List String) : String :=
  (get_variant title variants).getD ""

/-- `get_ics_calendar(url, columns, variants)`, with the network outcome
and the `icalendar` parser supplied as oracles.  The returned `Bool` is
true when `warnings.warn(f'{url} does not return events')` fired: the
body was falsy (empty).  A fetch error or a parse error propagates —
nothing in the function catches it. -/
def get_ics_calendar (f : FetchOutcome) (par : String → Except ParseErr IcsCalendar)
    (url : String) (columns : List String) (variants : List String) :
    Except IcsErr (DataFrame × Bool) :=
  match get_content f with
  | .error e => .error (.net e)
  | .ok ics =>
    if ics = "" then .ok (⟨columns, []⟩, true)
    else
      match par ics with
      | .error e => .error (.parse e)
      | .ok gcal =>
        .ok (⟨columns,
          (gcal.filter (fun c => c.name == "VEVENT")).map (fun c =>
            [PVal.vstr c.dtstart, PVal.vstr c.dtend,
             PVal.vstr (get_variant_ok c.summary variants),
             c.location, PVal.vstr c.summary,
             PVal.vstr (render_link (match c.url with
               | some u => if u = "" then url else u
               | none => url))])⟩, false)

/-! ### `update_tournaments.py`: merge, filter, dedupe, sort, serialize -/

/-- The `sort_values` key
`by=['start-date', 'end-date', 'variant', 'location', 'tournament']`. -/
def sortKey (r : Row) : List (List Char) :=
  [r.startDate.data, r.endDate.data, r.variant.data, r.location.data, r.tournament.data]

/-- Lexicographic three-way comparison of rows on the `sort_values` key. -/
def rowCmp (a b : Row) : Ordering :=
  cmpList lexCmp (sortKey a) (sortKey b)

/-- Non-strict row order used for sorting. -/
def rowLe (a b : Row) : Bool := !(rowCmp a b == .gt)

/-- `merged.sort_values(by=['start-date', 'end-date', 'variant', 'location', 'tournament'])`. -/
def sortRows (rows : List Row) : List Row := rows.mergeSort rowLe

/-- Cleaning one concatenated row: `prettify_location` on its location
cell (the script assigns the cleaned column back into the table). -/
def prettifyRow (r : RawRow) : Row :=
  ⟨r.startDate, r.endDate, r.variant, prettifyVal r.location, r.tournament, r.source⟩

/-- The `__main__` merge with filtering enabled (no `--unfiltered`):
concatenate the persisted table with the fetched tables, clean the
location column, drop past rows, drop exact duplicates keeping the last,
drop fuzzy duplicates keeping the last, and sort. -/
def pipelineFiltered (current fetched : List RawRow) (today : String) : List Row :=
  let merged := (current ++ fetched).map prettifyRow
  let kept := filterPast today merged
  let d1 := dropDupKeepLast exactKey kept
  let d2 := dropDupKeepLast fuzzyKey d1
  sortRows d2

/-- The header of `tournaments.tsv`. -/
def tsvHeader : String :=
  "start-date\tend-date\tvariant\tlocation\ttournament\tsource"

/-- `merged.to_csv(..., sep='\t', index=False)`: the serialized bytes. -/
def serializeTsv (rows : List Row) : String :=
  tsvHeader ++ "\n" ++ String.join (rows.map (fun r =>
    r.startDate ++ "\t" ++ r.endDate ++ "\t" ++ r.variant ++ "\t" ++
    r.location ++ "\t" ++ r.tournament ++ "\t" ++ r.source ++ "\n"))

/-! ### `verify_links.py`: anti-bot detection -/

/-- An HTTP response as `check_url` sees it.  Header names are stored
lower-cased: `requests` hands back a case-insensitive mapping, so the
source's lookups by lower-case literal names are exact lookups here. -/
structure Response where
  status : Nat
  headers : List (String × String)
deriving DecidableEq

/-- Case-insensitive-dict lookup, on the lower-cased carrier. -/
def hdrGet (headers : List (String × String)) (name : String) : Option String :=
  (headers.find? (fun p => p.1 == name)).map (fun p => p.2)

/-- `name in headers`. -/
def hdrHas (headers : List (String × String)) (name : String) : Bool :=
  (hdrGet headers name).isSome

/-- `headers.get(name, d)`. -/
def hdrGetD (headers : List (String × String)) (name : String) (d : String) : String :=
  (hdrGet headers name).getD d

/-- The `antibot_indicators` list of `is_antibot_response`. -/
def ANTIBOT_INDICATORS : List String :=
  ["challenge", "captcha", "bot-protection", "human-verification", "security-check"]

/-- The `security_headers` list of `is_antibot_response`. -/
def SECURITY_HEADERS : List String :=
  ["cross-origin-embedder-policy", "cross-origin-opener-policy"]

/-- `is_antibot_response(response)` of `verify_links.py`: the Cloudflare
`cf-mitigated` challenge check, then the 403-with-cloudflare-server
check, then the generic 403/429 indicator scan and the
security-header/oversized-permissions-policy heuristic. -/
def is_antibot_response (r : Response) : Bool :=
  (hdrHas r.headers "cf-mitigated"
    && pyIn "challenge" (lowerStr (hdrGetD r.headers "cf-mitigated" "")))
  ||
  (r.status == 403 && hdrHas r.headers "server"
    && pyIn "cloudflare" (lowerStr (hdrGetD r.headers "server" ""))
    && (["cf-ray", "cf-request-id", "cf-mitigated"].any (fun h => hdrHas r.headers h)))
  ||
  ((r.status == 403 || r.status == 429) &&
    (r.headers.any (fun p => ANTIBOT_INDICATORS.any (fun ind =>
        pyIn ind (lowerStr p.1) || pyIn ind (lowerStr p.2)))
     || (r.status == 403
         && decide (2 ≤ (SECURITY_HEADERS.filter (fun h => hdrHas r.headers h)).length)
         && ((hdrHas r.headers "permissions-policy"
              && decide (200 < (hdrGetD r.headers "permissions-policy" "").length))
             || hdrHas r.headers "cf-ray"))))

/-! ### `verify_links.py`: `check_url` -/

/-- The exceptions the retry loop catches, in the order of its `except`
clauses; `otherExc` is the final catch-all `except Exception`. -/
inductive ReqErr where
  | timeout : ReqErr
  | connError : ReqErr
  | tooManyRedirects : ReqErr
  | reqExc : String → ReqErr
  | otherExc : String → ReqErr
deriving DecidableEq

/-- The `last_error` text each `except` clause records. -/
def errMsg : ReqErr → String
  | .timeout => "Timeout"
  | .connError => "Connection error"
  | .tooManyRedirects => "Too many redirects"
  | .reqExc m => "Request error: " ++ m
  | .otherExc m => "Unexpected error: " ++ m

/-- One probe (`requests.head` or `requests.get`): a response, or a
raised exception. -/
inductive ProbeResult where
  | resp : Response → ProbeResult
  | exc : ReqErr → ProbeResult
deriving DecidableEq

/-- `MAX_RETRIES = 3`. -/
def MAX_RETRIES : Nat := 3

/-- The HEAD-then-GET fallback at the top of the `try` block: take the
HEAD outcome; on a response with status 400 or above, the GET outcome
replaces it (and a GET exception is caught like any other). -/
def attemptOutcome (head get : ProbeResult) : ProbeResult :=
  match head with
  | .exc e => .exc e
  | .resp r => if 400 ≤ r.status then get else .resp r

/-- The `for current_attempt in range(attempt, MAX_RETRIES + 1)` loop of
`check_url`, from attempt `cur` on, with the `last_error` accumulator.
`head i` and `get i` are the outcomes of the two probes of attempt `i`.
Returns the `(success, error_message)` tuple together with the number of
attempts performed. -/
def checkUrlFrom (head get : Nat → ProbeResult) (cur : Nat) (lastErr : String) :
    (Bool × String) × Nat :=
  if MAX_RETRIES < cur then
    ((false, lastErr ++ " (failed after " ++ toString MAX_RETRIES ++ " attempts)"), 0)
  else
    match attemptOutcome (head cur) (get cur) with
    | .resp r =>
      if is_antibot_response r then
        ((true, "Anti-bot protection detected (human-accessible)"), 1)
      else if r.status < 400 then ((true, ""), 1)
      else
        let next := checkUrlFrom head get (cur + 1) ("HTTP " ++ toString r.status)
        (next.1, next.2 + 1)
    | .exc e =>
      let next := checkUrlFrom head get (cur + 1) (errMsg e)
      (next.1, next.2 + 1)
termination_by MAX_RETRIES + 1 - cur
decreasing_by
  all_goals simp only [MAX_RETRIES] at *; omega

/-- `check_url(url)`: the `(success, error_message)` result. -/
def check_url (head get : Nat → ProbeResult) : Bool × String :=
  (checkUrlFrom head get 1 "").1

/-- How many attempts the loop of `check_url` performed. -/
def checkUrlAttempts (head get : Nat → ProbeResult) : Nat :=
  (checkUrlFrom head get 1 "").2

/-! ## Theorems -/

/-! ### C1: variant inference -/

/-- C1. For every event title and every permitted variant tuple passing
the assert (so in particular non-empty), `get_variant` lower-cases the
title, splits it into words, and intersects the distinct-word set with
the permitted set: if exactly one permitted variant word appears it
returns that variant capitalized; otherwise it returns the first variant
of the permitted tuple capitalized.  In particular the ambiguous title
`'Xiangqi Open Janggi Cup'` against `('xiangqi', 'janggi')` yields
`'Xiangqi'`, the first permitted variant. -/
theorem get_variant_spec (title : String) (variants : List String)
    (h : ∃ v, v ∈ variants ∧ v ∈ ALL_VARIANTS) :
    (∀ w, variantWords title variants = [w] →
        get_variant title variants = some (pyCapitalize ⟨w⟩))
    ∧ ((variantWords title variants).length ≠ 1 → ∀ v vs, variants = v :: vs →
        get_variant title variants = some (pyCapitalize v))
    ∧ get_variant "Xiangqi Open Janggi Cup" ["xiangqi", "janggi"] = some "Xiangqi" := by
  have hassert : variants.any (fun v => ALL_VARIANTS.contains v) = true := by
    obtain ⟨v, hv, hva⟩ := h
    rw [List.any_eq_true]
    exact ⟨v, hv, List.elem_eq_true_of_mem hva⟩
  refine ⟨?_, ?_, by decide⟩
  · intro w hw
    unfold get_variant
    rw [if_pos hassert, hw]
    simp
  · intro hlen v vs hv
    unfold get_variant
    rw [if_pos hassert]
    simp only [beq_iff_eq] at hlen ⊢
    rw [if_neg (by simpa using hlen), hv]
    simp

/-- Witness for C1 at the concrete ambiguous title of the claim. -/
theorem get_variant_spec_witness :
    get_variant "Xiangqi Open Janggi Cup" ["xiangqi", "janggi"] = some "Xiangqi" :=
  (get_variant_spec "Xiangqi Open Janggi Cup" ["xiangqi", "janggi"]
    ⟨"xiangqi", by decide, by decide⟩).2.2

/-! ### C2: the date filter -/

/-- C2. With filtering enabled, the merge drops exactly the rows whose
`end-date` string is lexicographically strictly smaller than today's
`YYYY-MM-DD` string: a row of the merged table survives the filter iff
its `end-date` is not smaller than today, so a row ending today is
retained and a row ending the day before (a lexicographically smaller
zero-padded date) is dropped. -/
theorem filterPast_mem (today : String) (rows : List Row) (r : Row) (h : r ∈ rows) :
    r ∈ filterPast today rows ↔ pyStrLt r.endDate today = false := by
  unfold filterPast
  rw [List.mem_filter]
  simp [h]

/-- Witness for C2: with today `2025-05-10`, the row ending `2025-05-10`
is retained and the row ending `2025-05-09` is dropped. -/
theorem filterPast_mem_witness :
    ((⟨"2025-05-01", "2025-05-10", "Shogi", "Lyon", "Open", "s"⟩ : Row) ∈
        filterPast "2025-05-10"
          [⟨"2025-05-01", "2025-05-10", "Shogi", "Lyon", "Open", "s"⟩,
           ⟨"2025-05-01", "2025-05-09", "Shogi", "Lyon", "Cup", "s"⟩]
      ↔ pyStrLt "2025-05-10" "2025-05-10" = false)
    ∧ ((⟨"2025-05-01", "2025-05-09", "Shogi", "Lyon", "Cup", "s"⟩ : Row) ∈
        filterPast "2025-05-10"
          [⟨"2025-05-01", "2025-05-10", "Shogi", "Lyon", "Open", "s"⟩,
           ⟨"2025-05-01", "2025-05-09", "Shogi", "Lyon", "Cup", "s"⟩]
      ↔ pyStrLt "2025-05-09" "2025-05-10" = false) :=
  ⟨filterPast_mem "2025-05-10" _ _ (by decide),
   filterPast_mem "2025-05-10" _ _ (by decide)⟩

/-! ### C3: exact-duplicate removal keeps the last occurrence -/

/-- The rows surviving `drop_duplicates(keep='last')` are a subsequence
of the input (relative order preserved, every kept row a real input row). -/
theorem dropDupKeepLast_sublist {α K : Type} [DecidableEq K] (key : α → K)
    (rows : List α) : (dropDupKeepLast key rows).Sublist rows := by
  induction rows with
  | nil => simp [dropDupKeepLast]
  | cons r rest ih =>
    rw [dropDupKeepLast]
    split
    · exact ih.cons r
    · exact ih.cons₂ r

/-- Among the rows with any fixed key `k`, `drop_duplicates(keep='last')`
retains exactly the last-seen one (and nothing when the key is absent). -/
theorem dropDupKeepLast_filter_key {α K : Type} [DecidableEq α] [DecidableEq K]
    (key : α → K) (rows : List α) (k : K) :
    (dropDupKeepLast key rows).filter (fun r => decide (key r = k)) =
      ((rows.filter (fun r => decide (key r = k))).getLast?).toList := by
  induction rows with
  | nil => rfl
  | cons r rest ih =>
    by_cases hdup : rest.any (fun q => decide (key q = key r)) = true
    · rw [dropDupKeepLast, if_pos hdup, ih]
      by_cases hk : key r = k
      · have hne : rest.filter (fun q => decide (key q = k)) ≠ [] := by
          rw [List.any_eq_true] at hdup
          obtain ⟨q, hq, hqk⟩ := hdup
          have hqmem : q ∈ rest.filter (fun q => decide (key q = k)) := by
            rw [List.mem_filter]
            refine ⟨hq, ?_⟩
            simp only [decide_eq_true_eq] at hqk ⊢
            rw [hqk, hk]
          intro hnil
          rw [hnil] at hqmem
          exact absurd hqmem (List.not_mem_nil q)
        rw [List.filter_cons_of_pos (by simp [hk])]
        cases hfr : rest.filter (fun q => decide (key q = k)) with
        | nil => exact absurd hfr hne
        | cons a t => simp [List.getLast?_cons_cons]
      · rw [List.filter_cons_of_neg (by simp [hk])]
    · rw [dropDupKeepLast, if_neg hdup]
      by_cases hk : key r = k
      · have hnone : rest.filter (fun q => decide (key q = k)) = [] := by
          rw [List.filter_eq_nil_iff]
          intro q hq
          simp only [decide_eq_true_eq]
          intro hqk
          exact hdup (List.any_eq_true.2 ⟨q, hq, by simp [hqk, hk]⟩)
        rw [List.filter_cons_of_pos (by simp [hk]), List.filter_cons_of_pos (by simp [hk]),
          ih, hnone]
        rfl
      · rw [List.filter_cons_of_neg (by simp [hk]), List.filter_cons_of_neg (by simp [hk]), ih]

/-- C3. For every input table, the exact-duplicate removal on
`('start-date', 'variant', 'tournament')` with `keep='last'` keeps,
among the rows carrying any given key, precisely the last-seen
occurrence — that exact row, location cell and all — and removes every
earlier occurrence; the surviving rows are a subsequence of the input.
So a freshly fetched row appended after a persisted row with the same
key survives unchanged while the persisted one is removed. -/
theorem exact_dedupe_keeps_last (rows : List Row) (k : String × String × String) :
    (dropDupKeepLast exactKey rows).filter (fun r => decide (exactKey r = k)) =
      ((rows.filter (fun r => decide (exactKey r = k))).getLast?).toList
    ∧ (dropDupKeepLast exactKey rows).Sublist rows :=
  ⟨dropDupKeepLast_filter_key exactKey rows k, dropDupKeepLast_sublist exactKey rows⟩

/-! ### C5, C6: error behaviour of the ICS normalizer -/

/-- Counterexample to C5.  A fetch hitting an HTTP error status is fatal:
`get_content` performs `response.raise_for_status()` and nothing in
`get_ics_calendar` catches the resulting exception, so a 500 response
propagates as an error — the function does not degrade to an empty
result set. -/
theorem ics_fetch_error_counterexample :
    get_ics_calendar (.response 500 "BEGIN:VCALENDAR") (fun _ => .ok [])
        "https://fesashogi.eu/calendar/" ["start-date"] ["shogi"] =
      .error (.net (.httpStatus 500))
    ∧ (get_ics_calendar (.response 500 "BEGIN:VCALENDAR") (fun _ => .ok [])
        "https://fesashogi.eu/calendar/" ["start-date"] ["shogi"]).isOk = false :=
  ⟨rfl, rfl⟩

/-- C5 as amended.  A network failure while fetching an ICS feed is
fatal, not graceful: an HTTP error status raises out of `get_content`
(`raise_for_status`) and a connection-level exception raises out of
`requests.get`, and `get_ics_calendar` propagates either; only a
successfully fetched empty body degrades to an empty result set. -/
theorem ics_net_error_propagates :
    (∀ (st : Nat) (body : String) (par : String → Except ParseErr IcsCalendar)
        (url : String) (cols vars : List String), 400 ≤ st →
        get_ics_calendar (.response st body) par url cols vars =
          .error (.net (.httpStatus st)))
    ∧ (∀ (par : String → Except ParseErr IcsCalendar) (url : String)
        (cols vars : List String),
        get_ics_calendar .netException par url cols vars =
          .error (.net .connectionFailure)) := by
  constructor
  · intro st body par url cols vars hst
    simp [get_ics_calendar, get_content, hst]
  · intro par url cols vars
    rfl

/-- Witness for the amended C5 at a concrete 503 response. -/
theorem ics_net_error_propagates_witness :
    get_ics_calendar (.response 503 "x") (fun _ => .ok []) "u" [] ["shogi"] =
      .error (.net (.httpStatus 503)) :=
  ics_net_error_propagates.1 503 "x" (fun _ => .ok []) "u" [] ["shogi"] (by decide)

/-- Counterexample to C6.  A malformed non-empty feed body is not
handled: `icalendar.Calendar.from_ical` raises on it (modelled by the
parse oracle returning an error) and `get_ics_calendar` has no handler,
so the call fails instead of emitting zero records with a warning. -/
theorem ics_malformed_counterexample :
    get_ics_calendar (.response 200 "garbage") (fun _ => .error .malformed)
        "u" ["c"] ["shogi"] =
      .error (.parse .malformed)
    ∧ (get_ics_calendar (.response 200 "garbage") (fun _ => .error .malformed)
        "u" ["c"] ["shogi"]).isOk = false :=
  ⟨rfl, rfl⟩

/-- C6 as amended.  If the fetched feed body is empty, `get_ics_calendar`
emits zero records — an empty table carrying exactly the caller-supplied
column order — signals the non-fatal `warnings.warn` to the caller, and
does not fail; but a malformed non-empty body makes the parser raise and
the error propagates. -/
theorem ics_empty_body_graceful :
    (∀ (st : Nat) (par : String → Except ParseErr IcsCalendar) (url : String)
        (cols vars : List String), st < 400 →
        get_ics_calendar (.response st "") par url cols vars =
          .ok (⟨cols, []⟩, true))
    ∧ (∀ (st : Nat) (body : String) (par : String → Except ParseErr IcsCalendar)
        (url : String) (cols vars : List String) (pe : ParseErr),
        st < 400 → body ≠ "" → par body = .error pe →
        get_ics_calendar (.response st body) par url cols vars =
          .error (.parse pe)) := by
  constructor
  · intro st par url cols vars hst
    have hn : ¬ 400 ≤ st := by omega
    simp [get_ics_calendar, get_content, hn]
  · intro st body par url cols vars pe hst hbody hpar
    have hn : ¬ 400 ≤ st := by omega
    simp [get_ics_calendar, get_content, hn, hbody, hpar]

/-- Witness for the amended C6: an empty body from a 200 response gives
the empty table with the caller's columns plus a warning, and a garbage
body whose parse fails gives a parse error. -/
theorem ics_empty_body_graceful_witness :
    get_ics_calendar (.response 200 "") (fun _ => .ok []) "u"
        ["start-date", "end-date"] ["shogi"] =
      .ok (⟨["start-date", "end-date"], []⟩, true)
    ∧ get_ics_calendar (.response 200 "BEGIN:GARBAGE") (fun _ => .error .malformed)
        "u" ["start-date"] ["shogi"] =
      .error (.parse .malformed) :=
  ⟨ics_empty_body_graceful.1 200 (fun _ => .ok []) "u" ["start-date", "end-date"]
      ["shogi"] (by decide),
   ics_empty_body_graceful.2 200 "BEGIN:GARBAGE" (fun _ => .error .malformed)
      "u" ["start-date"] ["shogi"] .malformed (by decide) (by decide) rfl⟩

/-! ### C7, C8, C10: the `check_url` retry loop -/

/-- Past the last attempt the loop reports the accumulated last error. -/
theorem checkUrlFrom_exhausted (head get : Nat → ProbeResult) (cur : Nat)
    (lastErr : String) (hcur : MAX_RETRIES < cur) :
    checkUrlFrom head get cur lastErr =
      ((false, lastErr ++ " (failed after " ++ toString MAX_RETRIES ++ " attempts)"), 0) := by
  rw [checkUrlFrom, if_pos hcur]

/-- An in-range attempt whose outcome is an anti-bot-flagged response
ends the loop at once with the annotation. -/
theorem checkUrlFrom_antibot (head get : Nat → ProbeResult) (cur : Nat)
    (lastErr : String) (r : Response) (hcur : cur ≤ MAX_RETRIES)
    (h : attemptOutcome (head cur) (get cur) = .resp r)
    (hab : is_antibot_response r = true) :
    checkUrlFrom head get cur lastErr =
      ((true, "Anti-bot protection detected (human-accessible)"), 1) := by
  rw [checkUrlFrom, if_neg (by omega), h]
  simp [hab]

/-- An in-range attempt whose outcome is a non-anti-bot response with
status below 400 ends the loop at once with success. -/
theorem checkUrlFrom_ok (head get : Nat → ProbeResult) (cur : Nat)
    (lastErr : String) (r : Response) (hcur : cur ≤ MAX_RETRIES)
    (h : attemptOutcome (head cur) (get cur) = .resp r)
    (hab : is_antibot_response r = false) (hst : r.status < 400) :
    checkUrlFrom head get cur lastErr = ((true, ""), 1) := by
  rw [checkUrlFrom, if_neg (by omega), h]
  simp [hab, hst]

/-- An in-range attempt whose outcome is a non-anti-bot HTTP error
records `HTTP <status>` and moves to the next attempt. -/
theorem checkUrlFrom_httpError (head get : Nat → ProbeResult) (cur : Nat)
    (lastErr : String) (r : Response) (hcur : cur ≤ MAX_RETRIES)
    (h : attemptOutcome (head cur) (get cur) = .resp r)
    (hab : is_antibot_response r = false) (hst : 400 ≤ r.status) :
    checkUrlFrom head get cur lastErr =
      ((checkUrlFrom head get (cur + 1) ("HTTP " ++ toString r.status)).1,
       (checkUrlFrom head get (cur + 1) ("HTTP " ++ toString r.status)).2 + 1) := by
  rw [checkUrlFrom, if_neg (by omega), h]
  simp [hab, Nat.not_lt.2 hst]

/-- An in-range attempt whose outcome is a caught exception records the
error class and moves to the next attempt. -/
theorem checkUrlFrom_exc (head get : Nat → ProbeResult) (cur : Nat)
    (lastErr : String) (e : ReqErr) (hcur : cur ≤ MAX_RETRIES)
    (h : attemptOutcome (head cur) (get cur) = .exc e) :
    checkUrlFrom head get cur lastErr =
      ((checkUrlFrom head get (cur + 1) (errMsg e)).1,
       (checkUrlFrom head get (cur + 1) (errMsg e)).2 + 1) := by
  rw [checkUrlFrom, if_neg (by omega), h]

/-- C7. For every HTTP response matching a recognized anti-bot/challenge
signature — a `cf-mitigated` header containing `challenge`; a 403 with a
Cloudflare `server` header plus one of `cf-ray`/`cf-request-id`/
`cf-mitigated`; a 403/429 carrying a challenge/captcha-related header
name or value; or a 403 with both cross-origin security headers plus an
oversized `permissions-policy` (or a `cf-ray`) header — `check_url`
classifies the URL as a success carrying the explanatory annotation, in
a single attempt, with no retry. -/
theorem antibot_success_no_retry (head get : Nat → ProbeResult) (r : Response)
    (h1 : attemptOutcome (head 1) (get 1) = .resp r)
    (h2 : is_antibot_response r = true) :
    check_url head get = (true, "Anti-bot protection detected (human-accessible)")
    ∧ checkUrlAttempts head get = 1 := by
  unfold check_url checkUrlAttempts
  rw [checkUrlFrom_antibot head get 1 "" r (by decide) h1 h2]
  exact ⟨rfl, rfl⟩

/-- Witness for C7: a 403 with a Cloudflare server header and a `cf-ray`
header is classified success-with-annotation in one attempt. -/
theorem antibot_success_no_retry_witness :
    check_url (fun _ => .resp ⟨403, [("server", "cloudflare"), ("cf-ray", "7a")]⟩)
        (fun _ => .resp ⟨403, [("server", "cloudflare"), ("cf-ray", "7a")]⟩) =
      (true, "Anti-bot protection detected (human-accessible)")
    ∧ checkUrlAttempts (fun _ => .resp ⟨403, [("server", "cloudflare"), ("cf-ray", "7a")]⟩)
        (fun _ => .resp ⟨403, [("server", "cloudflare"), ("cf-ray", "7a")]⟩) = 1 :=
  antibot_success_no_retry _ _ ⟨403, [("server", "cloudflare"), ("cf-ray", "7a")]⟩
    (by decide) (by decide)

/-- C8. A URL whose first attempt produces a response with status below
400 (and no anti-bot flag) succeeds immediately with an empty error
message after exactly one attempt; `MAX_RETRIES` is 3; and a URL whose
three attempts all produce non-anti-bot HTTP error responses makes
exactly 3 attempts and fails with a message naming the last error class
and stating it failed after `MAX_RETRIES` attempts. -/
theorem check_url_retry_behaviour :
    (∀ (head get : Nat → ProbeResult) (r : Response),
        attemptOutcome (head 1) (get 1) = .resp r →
        is_antibot_response r = false → r.status < 400 →
        check_url head get = (true, "") ∧ checkUrlAttempts head get = 1)
    ∧ MAX_RETRIES = 3
    ∧ (∀ (head get : Nat → ProbeResult) (r1 r2 r3 : Response),
        attemptOutcome (head 1) (get 1) = .resp r1 →
        attemptOutcome (head 2) (get 2) = .resp r2 →
        attemptOutcome (head 3) (get 3) = .resp r3 →
        is_antibot_response r1 = false → is_antibot_response r2 = false →
        is_antibot_response r3 = false →
        400 ≤ r1.status → 400 ≤ r2.status → 400 ≤ r3.status →
        check_url head get =
          (false, "HTTP " ++ toString r3.status ++ " (failed after " ++
            toString MAX_RETRIES ++ " attempts)")
        ∧ checkUrlAttempts head get = 3) := by
  refine ⟨?_, rfl, ?_⟩
  · intro head get r h1 hab hst
    unfold check_url checkUrlAttempts
    rw [checkUrlFrom_ok head get 1 "" r (by decide) h1 hab hst]
    exact ⟨rfl, rfl⟩
  · intro head get r1 r2 r3 h1 h2 h3 hab1 hab2 hab3 hst1 hst2 hst3
    unfold check_url checkUrlAttempts
    rw [checkUrlFrom_httpError head get 1 "" r1 (by decide) h1 hab1 hst1,
      checkUrlFrom_httpError head get 2 _ r2 (by decide) h2 hab2 hst2,
      checkUrlFrom_httpError head get 3 _ r3 (by decide) h3 hab3 hst3,
      checkUrlFrom_exhausted head get 4 _ (by decide)]
    exact ⟨rfl, rfl⟩

/-- Witness for C8: a constant-200 URL succeeds at once; a constant-500
URL fails after three attempts naming `HTTP 500`. -/
theorem check_url_retry_behaviour_witness :
    (check_url (fun _ => .resp ⟨200, []⟩) (fun _ => .resp ⟨200, []⟩) = (true, "")
      ∧ checkUrlAttempts (fun _ => .resp ⟨200, []⟩) (fun _ => .resp ⟨200, []⟩) = 1)
    ∧ (check_url (fun _ => .resp ⟨500, []⟩) (fun _ => .resp ⟨500, []⟩) =
        (false, "HTTP " ++ toString (500 : Nat) ++ " (failed after " ++
          toString MAX_RETRIES ++ " attempts)")
      ∧ checkUrlAttempts (fun _ => .resp ⟨500, []⟩) (fun _ => .resp ⟨500, []⟩) = 3) :=
  ⟨check_url_retry_behaviour.1 _ _ ⟨200, []⟩ rfl (by decide) (by decide),
   check_url_retry_behaviour.2.2 _ _ ⟨500, []⟩ ⟨500, []⟩ ⟨500, []⟩ rfl rfl rfl
     (by decide) (by decide) (by decide) (by decide) (by decide) (by decide)⟩

/-- The attempt counter of the loop never exceeds the remaining attempt
budget. -/
theorem checkUrlFrom_attempts_le (head get : Nat → ProbeResult) :
    ∀ (fuel cur : Nat) (lastErr : String), MAX_RETRIES + 1 - cur ≤ fuel →
      (checkUrlFrom head get cur lastErr).2 ≤ MAX_RETRIES + 1 - cur := by
  intro fuel
  induction fuel with
  | zero =>
    intro cur lastErr hf
    rw [checkUrlFrom_exhausted head get cur lastErr (by omega)]
    exact Nat.zero_le _
  | succ f ih =>
    intro cur lastErr hf
    by_cases hcur : MAX_RETRIES < cur
    · rw [checkUrlFrom_exhausted head get cur lastErr hcur]
      exact Nat.zero_le _
    · have hle : cur ≤ MAX_RETRIES := by omega
      cases h : attemptOutcome (head cur) (get cur) with
      | resp r =>
        by_cases hab : is_antibot_response r = true
        · rw [checkUrlFrom_antibot head get cur lastErr r hle h hab]
          simp only []
          omega
        · by_cases hst : r.status < 400
          · rw [checkUrlFrom_ok head get cur lastErr r hle h
              (Bool.not_eq_true _ ▸ hab) hst]
            simp only []
            omega
          · rw [checkUrlFrom_httpError head get cur lastErr r hle h
              (Bool.not_eq_true _ ▸ hab) (by omega)]
            have := ih (cur + 1) ("HTTP " ++ toString r.status) (by omega)
            simp only []
            omega
      | exc e =>
        rw [checkUrlFrom_exc head get cur lastErr e hle h]
        have := ih (cur + 1) (errMsg e) (by omega)
        simp only []
        omega

/-- C10. `check_url` is total over probe outcomes: whatever the two
probes of each attempt do — any response, or any raised exception,
including an arbitrary exception landing in the catch-all clause
(`ReqErr.otherExc`) — the function returns a `(success, message)` tuple
after at most `MAX_RETRIES` attempts; in particular when every attempt
raises, the exceptions are absorbed into the failure message instead of
propagating. -/
theorem check_url_total (head get : Nat → ProbeResult) :
    checkUrlAttempts head get ≤ MAX_RETRIES
    ∧ (∀ e1 e2 e3 : ReqErr,
        attemptOutcome (head 1) (get 1) = .exc e1 →
        attemptOutcome (head 2) (get 2) = .exc e2 →
        attemptOutcome (head 3) (get 3) = .exc e3 →
        check_url head get =
          (false, errMsg e3 ++ " (failed after " ++ toString MAX_RETRIES ++
            " attempts)")) := by
  constructor
  · have := checkUrlFrom_attempts_le head get (MAX_RETRIES + 1) 1 "" (by omega)
    unfold checkUrlAttempts
    omega
  · intro e1 e2 e3 h1 h2 h3
    unfold check_url
    rw [checkUrlFrom_exc head get 1 "" e1 (by decide) h1,
      checkUrlFrom_exc head get 2 _ e2 (by decide) h2,
      checkUrlFrom_exc head get 3 _ e3 (by decide) h3,
      checkUrlFrom_exhausted head get 4 _ (by decide)]

/-- Witness for C10: every attempt raising an arbitrary exception still
yields a returned failure tuple. -/
theorem check_url_total_witness :
    check_url (fun _ => .exc (.otherExc "boom")) (fun _ => .exc (.otherExc "boom")) =
      (false, errMsg (.otherExc "boom") ++ " (failed after " ++
        toString MAX_RETRIES ++ " attempts)") :=
  (check_url_total (fun _ => .exc (.otherExc "boom"))
    (fun _ => .exc (.otherExc "boom"))).2 _ _ _ rfl rfl rfl

/-! ### C9: order lemmas and determinism/sortedness of the merge -/

/-- `charCmp` answers `.eq` exactly on equal characters. -/
theorem charCmp_eq_iff (a b : Char) : charCmp a b = .eq ↔ a = b := by
  unfold charCmp
  by_cases h1 : a < b
  · simp [h1, ne_of_lt h1]
  · by_cases h2 : b < a
    · simp [h1, h2, (ne_of_lt h2).symm]
    · simp [h1, h2, le_antisymm (le_of_not_lt h2) (le_of_not_lt h1)]

/-- Swapping the arguments of `charCmp` swaps the answer. -/
theorem charCmp_swap (a b : Char) : charCmp b a = (charCmp a b).swap := by
  unfold charCmp
  rcases lt_trichotomy a b with h | h | h
  · simp [h, not_lt_of_lt h, Ordering.swap]
  · simp [h, lt_irrefl b, Ordering.swap]
  · simp [h, not_lt_of_lt h, Ordering.swap]

/-- `charCmp` answers `.lt` exactly on strictly smaller characters. -/
theorem charCmp_lt_iff (a b : Char) : charCmp a b = .lt ↔ a < b := by
  unfold charCmp
  by_cases h1 : a < b
  · simp [h1]
  · by_cases h2 : b < a <;> simp [h1, h2]

/-- `cmpList` answers `.eq` exactly on equal lists, given that the
component comparison does. -/
theorem cmpList_eq_iff {α : Type} {cmp : α → α → Ordering}
    (heq : ∀ a b, cmp a b = .eq ↔ a = b) :
    ∀ as bs : List α, cmpList cmp as bs = .eq ↔ as = bs := by
  intro as
  induction as with
  | nil => intro bs; cases bs <;> simp [cmpList]
  | cons a as ih =>
    intro bs
    cases bs with
    | nil => simp [cmpList]
    | cons b bs =>
      rw [cmpList]
      constructor
      · intro h
        have h1 : cmp a b = .eq ∧ cmpList cmp as bs = .eq := by
          cases hc : cmp a b <;> rw [hc] at h <;> simp [Ordering.then] at h ⊢
          exact h
        rw [(heq a b).1 h1.1, (ih bs).1 h1.2]
      · intro h
        injection h with h1 h2
        rw [(heq a b).2 h1, (ih bs).2 h2]
        rfl

/-- Swapping the arguments of `cmpList` swaps the answer, given that the
component comparison swaps. -/
theorem cmpList_swap {α : Type} {cmp : α → α → Ordering}
    (hswap : ∀ a b, cmp b a = (cmp a b).swap) :
    ∀ as bs : List α, cmpList cmp bs as = (cmpList cmp as bs).swap := by
  intro as
  induction as with
  | nil => intro bs; cases bs <;> simp [cmpList, Ordering.swap]
  | cons a as ih =>
    intro bs
    cases bs with
    | nil => simp [cmpList, Ordering.swap]
    | cons b bs =>
      rw [cmpList, cmpList, hswap a b, ih bs]
      cases cmp a b <;> simp [Ordering.then, Ordering.swap]

/-- `.lt` answers of `cmpList` compose transitively, given the component
laws. -/
theorem cmpList_lt_trans {α : Type} {cmp : α → α → Ordering}
    (heq : ∀ a b, cmp a b = .eq ↔ a = b)
    (htr : ∀ a b c, cmp a b = .lt → cmp b c = .lt → cmp a c = .lt) :
    ∀ as bs cs : List α, cmpList cmp as bs = .lt → cmpList cmp bs cs = .lt →
      cmpList cmp as cs = .lt := by
  intro as
  induction as with
  | nil =>
    intro bs cs h1 h2
    cases bs with
    | nil => exact h2
    | cons b bs =>
      cases cs with
      | nil => simp [cmpList] at h2
      | cons c cs => simp [cmpList]
  | cons a as ih =>
    intro bs cs h1 h2
    cases bs with
    | nil => simp [cmpList] at h1
    | cons b bs =>
      cases cs with
      | nil => simp [cmpList] at h2
      | cons c cs =>
        rw [cmpList] at h1 h2 ⊢
        cases hab : cmp a b with
        | gt => rw [hab] at h1; simp [Ordering.then] at h1
        | lt =>
          cases hbc : cmp b c with
          | gt => rw [hbc] at h2; simp [Ordering.then] at h2
          | lt => rw [htr a b c hab hbc]; rfl
          | eq =>
            have : b = c := (heq b c).1 hbc
            rw [← this, hab]
            rfl
        | eq =>
          have hb : a = b := (heq a b).1 hab
          rw [hab] at h1
          simp only [Ordering.then] at h1
          cases hbc : cmp b c with
          | gt => rw [hbc] at h2; simp [Ordering.then] at h2
          | lt => rw [hb, hbc]; rfl
          | eq =>
            have hc : b = c := (heq b c).1 hbc
            rw [hb, hbc]
            simp only [Ordering.then]
            rw [hbc] at h2
            simp only [Ordering.then] at h2
            subst hb hc
            exact ih bs cs h1 h2

/-- Swapping the arguments of `rowCmp` swaps the answer. -/
theorem rowCmp_swap (a b : Row) : rowCmp b a = (rowCmp a b).swap := by
  unfold rowCmp lexCmp
  exact cmpList_swap (cmpList_swap charCmp_swap) (sortKey a) (sortKey b)

/-- `rowCmp` answers `.eq` exactly on equal sort keys. -/
theorem rowCmp_eq_iff (a b : Row) : rowCmp a b = .eq ↔ sortKey a = sortKey b := by
  unfold rowCmp lexCmp
  exact cmpList_eq_iff (cmpList_eq_iff charCmp_eq_iff) (sortKey a) (sortKey b)

/-- `.lt` answers of `rowCmp` compose transitively. -/
theorem rowCmp_lt_trans (a b c : Row) :
    rowCmp a b = .lt → rowCmp b c = .lt → rowCmp a c = .lt := by
  unfold rowCmp lexCmp
  have hctr : ∀ x y z : Char, charCmp x y = .lt → charCmp y z = .lt →
      charCmp x z = .lt := fun x y z h1 h2 => (charCmp_lt_iff x z).2
    (lt_trans ((charCmp_lt_iff x y).1 h1) ((charCmp_lt_iff y z).1 h2))
  exact cmpList_lt_trans (cmpList_eq_iff charCmp_eq_iff)
    (cmpList_lt_trans charCmp_eq_iff hctr) (sortKey a) (sortKey b) (sortKey c)

/-- Replacing a row by one with the same sort key does not change `rowCmp`. -/
theorem rowCmp_congr_left {a b : Row} (c : Row) (h : sortKey a = sortKey b) :
    rowCmp a c = rowCmp b c := by
  unfold rowCmp
  rw [h]

/-- Same on the right argument. -/
theorem rowCmp_congr_right {b c : Row} (a : Row) (h : sortKey b = sortKey c) :
    rowCmp a b = rowCmp a c := by
  unfold rowCmp
  rw [h]

/-- `rowLe` is total. -/
theorem rowLe_total (a b : Row) : (rowLe a b || rowLe b a) = true := by
  unfold rowLe
  rw [rowCmp_swap a b]
  cases rowCmp a b <;> rfl

/-- `rowLe` is transitive. -/
theorem rowLe_trans (a b c : Row) :
    rowLe a b = true → rowLe b c = true → rowLe a c = true := by
  unfold rowLe
  intro h1 h2
  cases hab : rowCmp a b with
  | gt => rw [hab] at h1; exact absurd h1 (by decide)
  | eq =>
    rw [rowCmp_congr_left c ((rowCmp_eq_iff a b).1 hab)]
    exact h2
  | lt =>
    cases hbc : rowCmp b c with
    | gt => rw [hbc] at h2; exact absurd h2 (by decide)
    | eq =>
      rw [← rowCmp_congr_right a ((rowCmp_eq_iff b c).1 hbc), hab]
      rfl
    | lt =>
      rw [rowCmp_lt_trans a b c hab hbc]
      rfl

/-- C9. The merge pipeline is deterministic — running merge, filter,
dedupe and sort on identical input tables with today's date held fixed
serializes to byte-identical output (the pipeline is a pure function of
its inputs) — and the final table is sorted ascending by
`('start-date', 'end-date', 'variant', 'location', 'tournament')`. -/
theorem pipeline_deterministic_sorted (current fetched : List RawRow) (today : String) :
    serializeTsv (pipelineFiltered current fetched today) =
      serializeTsv (pipelineFiltered current fetched today)
    ∧ List.Pairwise (fun a b => rowLe a b = true) (pipelineFiltered current fetched today) := by
  refine ⟨rfl, ?_⟩
  unfold pipelineFiltered sortRows
  exact @List.sorted_mergeSort Row rowLe rowLe_trans rowLe_total _

/-! ### C4: `prettify_location` and idempotence -/

/-- Counterexample to C4.  The cleaner is not idempotent on every column:
a comma-only location cleans to `''` (both segments strip to empty and
are dropped), but a second application sees the falsy `''`, substitutes
the `'-'` placeholder, and returns `'-'`. -/
theorem prettify_not_idempotent :
    prettifyCol (prettifyCol [PVal.vstr ","]) ≠ prettifyCol [PVal.vstr ","]
    ∧ prettifyCol [PVal.vstr ","] = [PVal.vstr ""]
    ∧ prettifyCol (prettifyCol [PVal.vstr ","]) = [PVal.vstr "-"] := by
  refine ⟨?_, by decide, by decide⟩
  decide

/-- `splitWhen` never produces the empty list of pieces. -/
theorem splitWhen_ne_nil (p : Char → Bool) (l : List Char) : splitWhen p l ≠ [] := by
  induction l with
  | nil => simp [splitWhen]
  | cons c cs ih =>
    rw [splitWhen]
    split
    · simp
    · cases h : splitWhen p cs with
      | nil => exact absurd h ih
      | cons a t => simp [h, List.modifyHead]

/-- Splitting at a separator character starts a fresh piece. -/
theorem splitWhen_cons_sep (p : Char → Bool) (c : Char) (l : List Char)
    (h : p c = true) : splitWhen p (c :: l) = [] :: splitWhen p l := by
  rw [splitWhen, if_pos h]

/-- Splitting at a non-separator character extends the first piece. -/
theorem splitWhen_cons_nosep (p : Char → Bool) (c : Char) (l : List Char)
    (h : p c = false) :
    splitWhen p (c :: l) = (splitWhen p l).modifyHead (fun x => c :: x) := by
  rw [splitWhen, if_neg (by simp [h])]

/-- Prepending separator-free text extends the first piece of a split. -/
theorem splitWhen_append_nosep (p : Char → Bool) (s l : List Char)
    (hs : ∀ c ∈ s, p c = false) :
    splitWhen p (s ++ l) = (splitWhen p l).modifyHead (fun x => s ++ x) := by
  induction s with
  | nil =>
    cases h : splitWhen p l with
    | nil => exact absurd h (splitWhen_ne_nil p l)
    | cons a t => rw [List.nil_append, h]; simp [List.modifyHead]
  | cons c s' ih =>
    have hc : p c = false := hs c (List.mem_cons_self c s')
    have ih' := ih (fun d hd => hs d (List.mem_cons_of_mem c hd))
    rw [List.cons_append, splitWhen, if_neg (by simp [hc]), ih']
    cases h : splitWhen p l with
    | nil => exact absurd h (splitWhen_ne_nil p l)
    | cons a t => simp [List.modifyHead]

/-- Every piece of a split is separator-free. -/
theorem splitWhen_pieces_nosep (p : Char → Bool) (t : List Char) :
    ∀ piece ∈ splitWhen p t, ∀ c ∈ piece, p c = false := by
  induction t with
  | nil =>
    intro piece hp
    rw [splitWhen] at hp
    simp at hp
    simp [hp]
  | cons d t ih =>
    intro piece hp
    rw [splitWhen] at hp
    by_cases hd : p d
    · rw [if_pos hd] at hp
      rcases List.mem_cons.1 hp with h | h
      · simp [h]
      · exact ih piece h
    · rw [if_neg hd] at hp
      cases h : splitWhen p t with
      | nil => exact absurd h (splitWhen_ne_nil p t)
      | cons a rest =>
        rw [h, List.modifyHead] at hp
        rcases List.mem_cons.1 hp with h1 | h1
        · subst h1
          intro c hc
          rcases List.mem_cons.1 hc with h2 | h2
          · subst h2; simpa using hd
          · exact ih a (h ▸ List.mem_cons_self a rest) c h2
        · exact ih piece (h ▸ List.mem_cons_of_mem a h1)

/-- Splitting a `", "`-join of comma-free segments on commas returns the
first segment verbatim and every later segment with its separator space
still attached. -/
theorem splitWhen_joinCS (s : List Char) (rest : List (List Char))
    (h : ∀ q ∈ s :: rest, ∀ c ∈ q, (c == ',') = false) :
    splitWhen (fun c => c == ',') (joinCS (s :: rest)) =
      s :: rest.map (fun r => ' ' :: r) := by
  induction rest generalizing s with
  | nil =>
    have hs := h s (List.mem_cons_self s [])
    have : joinCS [s] = s ++ [] := by simp [joinCS]
    rw [this, splitWhen_append_nosep _ _ _ hs]
    simp [splitWhen, List.modifyHead]
  | cons r rest' ih =>
    have hs := h s (List.mem_cons_self s (r :: rest'))
    rw [joinCS, splitWhen_append_nosep _ _ _ hs,
      splitWhen_cons_sep _ _ _ (by decide),
      splitWhen_cons_nosep _ _ _ (by decide),
      ih r (fun q hq => h q (List.mem_cons_of_mem s hq))]
    simp [List.modifyHead]

/-- The head surviving a `dropWhile` fails the predicate. -/
theorem dropWhile_head_not (p : Char → Bool) (l : List Char) :
    ∀ a, (l.dropWhile p).head? = some a → p a = false := by
  intro a ha
  have := List.head?_dropWhile_not p l
  rw [ha] at this
  exact this

/-- A list whose head fails the predicate survives `dropWhile` intact. -/
theorem dropWhile_eq_self_of_head (p : Char → Bool) (l : List Char)
    (h : ∀ a, l.head? = some a → p a = false) : l.dropWhile p = l := by
  cases l with
  | nil => rfl
  | cons c t =>
    rw [List.dropWhile_cons, if_neg (by simp [h c rfl])]

/-- A nonempty `dropWhile` keeps the last element of its input. -/
theorem getLast?_dropWhile (p : Char → Bool) (l : List Char)
    (h : l.dropWhile p ≠ []) : (l.dropWhile p).getLast? = l.getLast? := by
  induction l with
  | nil => rfl
  | cons c t ih =>
    rw [List.dropWhile_cons]
    by_cases hc : p c
    · rw [if_pos hc]
      rw [List.dropWhile_cons, if_pos hc] at h
      cases ht : t with
      | nil => rw [ht] at h; exact absurd rfl h
      | cons b t' =>
        rw [← ht, ih (ht ▸ h), ht, List.getLast?_cons_cons]
    · rw [if_neg hc]

/-- The first character of a stripped list is not whitespace. -/
theorem stripL_head (l : List Char) :
    ∀ a, (stripL l).head? = some a → Char.isWhitespace a = false := by
  intro a ha
  unfold stripL at ha
  rw [List.head?_reverse] at ha
  have hne : (l.dropWhile Char.isWhitespace).reverse.dropWhile Char.isWhitespace ≠ [] := by
    intro hnil
    rw [hnil] at ha
    exact absurd ha (by simp)
  rw [getLast?_dropWhile _ _ hne, List.getLast?_reverse] at ha
  exact dropWhile_head_not _ _ a ha

/-- The last character of a stripped list is not whitespace. -/
theorem stripL_last (l : List Char) :
    ∀ a, (stripL l).getLast? = some a → Char.isWhitespace a = false := by
  intro a ha
  unfold stripL at ha
  rw [List.getLast?_reverse] at ha
  exact dropWhile_head_not _ _ a ha

/-- A list without whitespace at either edge is already stripped. -/
theorem stripL_eq_self (l : List Char)
    (hh : ∀ a, l.head? = some a → Char.isWhitespace a = false)
    (hl : ∀ a, l.getLast? = some a → Char.isWhitespace a = false) :
    stripL l = l := by
  unfold stripL
  rw [dropWhile_eq_self_of_head _ _ hh,
    dropWhile_eq_self_of_head _ _ (by rw [List.head?_reverse]; exact hl),
    List.reverse_reverse]

/-- Stripping absorbs one leading space. -/
theorem stripL_cons_space (l : List Char) : stripL (' ' :: l) = stripL l := by
  unfold stripL
  rw [List.dropWhile_cons, if_pos (by decide)]

/-- Stripping only removes characters. -/
theorem mem_stripL (l : List Char) : ∀ c ∈ stripL l, c ∈ l := by
  intro c hc
  unfold stripL at hc
  rw [List.mem_reverse] at hc
  have h1 := (@List.dropWhile_sublist Char
    ((l.dropWhile Char.isWhitespace).reverse) Char.isWhitespace).subset hc
  rw [List.mem_reverse] at h1
  exact (List.dropWhile_sublist Char.isWhitespace).subset h1

/-- `dedupFirst` only returns input elements. -/
theorem dedupFirst_subset (seen xs : List (List Char)) :
    ∀ y ∈ dedupFirst seen xs, y ∈ xs := by
  induction xs generalizing seen with
  | nil => intro y hy; exact absurd hy (by simp [dedupFirst])
  | cons x xs ih =>
    intro y hy
    rw [dedupFirst] at hy
    by_cases hx : x ∈ seen
    · rw [if_pos hx] at hy
      exact List.mem_cons_of_mem x (ih seen y hy)
    · rw [if_neg hx] at hy
      rcases List.mem_cons.1 hy with h | h
      · exact h ▸ List.mem_cons_self x xs
      · exact List.mem_cons_of_mem x (ih (x :: seen) y h)

/-- `dedupFirst` produces no duplicates and nothing already seen. -/
theorem dedupFirst_nodup (seen xs : List (List Char)) :
    (dedupFirst seen xs).Nodup ∧ ∀ y ∈ dedupFirst seen xs, y ∉ seen := by
  induction xs generalizing seen with
  | nil => exact ⟨by simp [dedupFirst], by simp [dedupFirst]⟩
  | cons x xs ih =>
    rw [dedupFirst]
    by_cases hx : x ∈ seen
    · rw [if_pos hx]
      exact ih seen
    · rw [if_neg hx]
      obtain ⟨hnd, hns⟩ := ih (x :: seen)
      refine ⟨List.nodup_cons.2 ⟨?_, hnd⟩, ?_⟩
      · intro hmem
        exact hns x hmem (List.mem_cons_self x seen)
      · intro y hy
        rcases List.mem_cons.1 hy with h | h
        · exact h ▸ hx
        · exact fun hseen => hns y h (List.mem_cons_of_mem x hseen)

/-- `dedupFirst` is the identity on duplicate-free input disjoint from
the seen accumulator. -/
theorem dedupFirst_eq_self (seen xs : List (List Char)) (hnd : xs.Nodup)
    (hdisj : ∀ x ∈ xs, x ∉ seen) : dedupFirst seen xs = xs := by
  induction xs generalizing seen with
  | nil => rfl
  | cons x xs ih =>
    rw [dedupFirst, if_neg (hdisj x (List.mem_cons_self x xs))]
    obtain ⟨hx, hnd'⟩ := List.nodup_cons.1 hnd
    rw [ih (x :: seen) hnd' ?_]
    intro y hy hmem
    rcases List.mem_cons.1 hmem with h | h
    · exact hx (h ▸ hy)
    · exact hdisj y (List.mem_cons_of_mem x hy) h

/-- Every segment the cleanup lambda produces is nonempty, stripped at
both edges, and comma-free. -/
theorem segsOf_mem (z : List Char) :
    ∀ s ∈ segsOf z, s ≠ []
      ∧ (∀ a, s.head? = some a → Char.isWhitespace a = false)
      ∧ (∀ a, s.getLast? = some a → Char.isWhitespace a = false)
      ∧ (∀ c ∈ s, (c == ',') = false) := by
  intro s hs
  rw [segsOf] at hs
  have h1 := dedupFirst_subset _ _ s hs
  rw [List.mem_filter] at h1
  obtain ⟨h2, h3⟩ := h1
  rw [List.mem_map] at h2
  obtain ⟨s0, hs0, hstrip⟩ := h2
  have hne : s ≠ [] := by
    intro hnil
    rw [hnil] at h3
    exact absurd h3 (by decide)
  refine ⟨hne, ?_, ?_, ?_⟩
  · rw [← hstrip]
    exact stripL_head s0
  · rw [← hstrip]
    exact stripL_last s0
  · intro c hc
    have hc0 : c ∈ s0 := mem_stripL s0 c (hstrip ▸ hc)
    exact splitWhen_pieces_nosep (fun c => c == ',') _ s0 hs0 c hc0

/-- The cleanup lambda produces no duplicate segments. -/
theorem segsOf_nodup (z : List Char) : (segsOf z).Nodup :=
  (dedupFirst_nodup [] _).1

/-- The cleanup lambda of `prettify_location` is idempotent on every
input whose cleaned value is non-empty. -/
theorem cleanupL_idem (z : List Char) (h : cleanupL z ≠ []) :
    cleanupL (cleanupL z) = cleanupL z := by
  have hsegs : segsOf z ≠ [] := by
    intro hnil
    exact h (by rw [cleanupL, hnil]; rfl)
  obtain ⟨s, rest, hz⟩ : ∃ s rest, segsOf z = s :: rest := by
    cases hs : segsOf z with
    | nil => exact absurd hs hsegs
    | cons a t => exact ⟨a, t, rfl⟩
  have hprops : ∀ q ∈ s :: rest, _ := fun q hq => segsOf_mem z q (hz ▸ hq)
  have hy : cleanupL z = joinCS (s :: rest) := by rw [cleanupL, hz]
  have hynil : joinCS (s :: rest) ≠ [] := hy ▸ h
  have hcomma : ∀ q ∈ s :: rest, ∀ c ∈ q, (c == ',') = false :=
    fun q hq => (hprops q hq).2.2.2
  rw [hy, cleanupL, segsOf,
    if_neg (by simp [List.isEmpty_eq_false.2 hynil]),
    splitWhen_joinCS s rest hcomma, List.map_cons,
    stripL_eq_self s (hprops s (List.mem_cons_self s rest)).2.1
      (hprops s (List.mem_cons_self s rest)).2.2.1,
    List.map_map]
  have hmapr : rest.map (stripL ∘ fun r => ' ' :: r) = rest.map id := by
    refine List.map_congr_left ?_
    intro r hr
    show stripL (' ' :: r) = r
    rw [stripL_cons_space]
    exact stripL_eq_self r (hprops r (List.mem_cons_of_mem s hr)).2.1
      (hprops r (List.mem_cons_of_mem s hr)).2.2.1
  rw [hmapr, List.map_id]
  have hfilter : (s :: rest).filter (fun q => !q.isEmpty) = s :: rest := by
    rw [List.filter_eq_self]
    intro q hq
    simp [List.isEmpty_eq_false.2 (hprops q hq).1]
  rw [hfilter, dedupFirst_eq_self [] (s :: rest) (hz ▸ segsOf_nodup z)
    (fun x _ hmem => List.not_mem_nil x hmem)]

/-- Every `prettify_location` output is a cleanup output. -/
theorem prettifyVal_data_cleanup (v : PVal) : ∃ w, prettifyVal v = ⟨cleanupL w⟩ := by
  cases v with
  | vnone => exact ⟨[], rfl⟩
  | vnan => exact ⟨"nan".data, rfl⟩
  | vstr s => exact ⟨regexPassL s.data, rfl⟩

/-- `prettify_location` is idempotent at every cell whose cleaned value
is non-empty and is a fixed point of the three regex substitutions. -/
theorem prettifyVal_idem_of (v : PVal) (h1 : prettifyVal v ≠ "")
    (h2 : regexPass (prettifyVal v) = prettifyVal v) :
    prettifyVal (.vstr (prettifyVal v)) = prettifyVal v := by
  obtain ⟨w, hw⟩ := prettifyVal_data_cleanup v
  have hdata : (prettifyVal v).data = cleanupL w := by rw [hw]
  have hregex : regexPassL (prettifyVal v).data = (prettifyVal v).data :=
    congrArg String.data h2
  have hne : cleanupL w ≠ [] := by
    rw [← hdata]
    intro hnil
    apply h1
    apply String.ext
    rw [hnil]
  show (⟨cleanupL (regexPassL (prettifyVal v).data)⟩ : String) = prettifyVal v
  rw [hregex, hdata, cleanupL_idem w hne]
  exact hw.symm

/-- C4 as amended.  The location cleaner is idempotent on every column
whose cells each clean to a non-empty string that the three regex
substitutions leave unchanged (which holds for ordinary cleaned
locations, null cells included); full idempotence fails, e.g. on a
comma-only cell, which cleans to `''` once and to `'-'` twice. -/
theorem prettify_idempotent_amended (col : List PVal)
    (h : ∀ v ∈ col, prettifyVal v ≠ "" ∧ regexPass (prettifyVal v) = prettifyVal v) :
    prettifyCol (prettifyCol col) = prettifyCol col := by
  unfold prettifyCol
  rw [List.map_map]
  refine List.map_congr_left ?_
  intro v hv
  show PVal.vstr (prettifyVal (.vstr (prettifyVal v))) = PVal.vstr (prettifyVal v)
  exact congrArg PVal.vstr (prettifyVal_idem_of v (h v hv).1 (h v hv).2)

/-- Witness for the amended C4: a column with an ordinary location and a
null cell is a fixed point after one cleaning. -/
theorem prettify_idempotent_amended_witness :
    prettifyCol (prettifyCol [PVal.vstr "Hamburg, Germany", PVal.vnone]) =
      prettifyCol [PVal.vstr "Hamburg, Germany", PVal.vnone] :=
  prettify_idempotent_amended [PVal.vstr "Hamburg, Germany", PVal.vnone] (by decide)
